import Mathlib

/-!
Verification development for the note-management endpoints of the
second-brain repository.  The filesystem is modelled as an association
list from resolved paths (segment lists, rooted at the process working
directory) to nodes; the notes root lives at the single segment
`"notes"`.  Each HTTP endpoint is embedded as a pure function from a
filesystem state and the request fields to a status code and the new
state.  Only relative request paths (no leading separator, POSIX
separators) are modelled.
-/

/-! ### String helpers mirroring the JavaScript primitives used by the routes -/

/-- Model of JavaScript `String.prototype.endsWith`: suffix test on the
character list. -/
def strEndsWith (s p : String) : Bool :=
  p.data.isSuffixOf s.data

/-- Model of JavaScript `String.prototype.trim`: drop whitespace from both
ends. -/
def trimStr (s : String) : String :=
  String.mk (((s.data.dropWhile Char.isWhitespace).reverse.dropWhile Char.isWhitespace).reverse)

/-- Characters removed by the create route's sanitizer, the regex
`[\/\\:\*\?\"<>\|]`. -/
def isCreateDisallowed (c : Char) : Bool :=
  c = '/' ∨ c = '\\' ∨ c = ':' ∨ c = '*' ∨ c = '?' ∨ c = '"' ∨ c = '<' ∨ c = '>' ∨ c = '|'

/-- Characters removed by the update route's validator, the regex
`[\*\?\"<>\|]` (separators and colons are kept). -/
def isUpdateDisallowed (c : Char) : Bool :=
  c = '*' ∨ c = '?' ∨ c = '"' ∨ c = '<' ∨ c = '>' ∨ c = '|'

/-- Strip one run of leading dots and one run of trailing dots, the regex
`^\.+|\.+$` applied globally. -/
def stripEdgeDots (s : String) : String :=
  String.mk (((s.data.dropWhile (· = '.')).reverse.dropWhile (· = '.')).reverse)

/-- Embedding of `sanitizeFilename` from the create route: remove the
disallowed characters, trim, strip leading/trailing dots, trim again,
force the `.md` extension, and fail (`none`, modelling the thrown
exception) when the result is empty or exactly `".md"`. -/
def sanitizeFilename (filename : String) : Option String :=
  let s1 := String.mk (filename.data.filter (fun c => ¬ isCreateDisallowed c))
  let s2 := trimStr (stripEdgeDots (trimStr s1))
  let s3 := if strEndsWith s2 ".md" then s2 else s2 ++ ".md"
  if s3 = "" ∨ s3 = ".md" then none else some s3

/-! ### Paths -/

/-- A resolved path: the list of segments below the process working
directory.  The notes root is `["notes"]`. -/
abbrev FPath := List String

/-- Split a raw path string on the separators `/` and `\`, keeping empty
segments (they are skipped during resolution, as `path.join` does). -/
def splitSegsAux : List Char → List Char → List String
  | [], acc => [String.mk acc.reverse]
  | c :: rest, acc =>
    if c = '/' ∨ c = '\\' then String.mk acc.reverse :: splitSegsAux rest []
    else splitSegsAux rest (c :: acc)

/-- Segments of a raw path string. -/
def splitSegs (s : String) : List String :=
  splitSegsAux s.data []

/-- Model of `path.join(base, p)` followed by normalisation: append the
raw segments to `base`, skipping `""` and `"."` and popping one segment
for `".."`.  Popping at the working-directory root is capped there. -/
def joinResolve (base : FPath) (segs : List String) : FPath :=
  segs.foldl
    (fun acc s =>
      if s = "" ∨ s = "." then acc
      else if s = ".." then acc.dropLast
      else acc ++ [s])
    base

/-- Model of `path.normalize` on a relative path: resolve `"."` and
`".."` segments, keeping leading `".."` segments that cannot cancel. -/
def normalizeRel (segs : List String) : List String :=
  segs.foldl
    (fun acc s =>
      if s = "" ∨ s = "." then acc
      else if s = ".." then
        if acc ≠ [] ∧ acc.getLast? ≠ some ".." then acc.dropLast else acc ++ [".."]
      else acc ++ [s])
    []

/-- Whether a segment contains two consecutive dots; `normalize(p).includes("..")`
holds exactly when some segment of the normalised path does (a separator
always intervenes between segments). -/
def hasTwoDots : List Char → Bool
  | [] => false
  | [_] => false
  | a :: b :: t => (a = '.' ∧ b = '.') ∨ hasTwoDots (b :: t)

/-- Model of `path.basename` of a raw segment list: the last segment after
discarding empty segments (trailing separators), or `""`. -/
def baseNameOf (segs : List String) : String :=
  ((segs.filter (fun s => s ≠ "")).getLast?).getD ""

/-- A string that `path.join(notesDir, ·)` places directly inside the notes
root: nonempty, not a dot component, and free of separators. -/
def isDirectChildName (r : String) : Bool :=
  r ≠ "" ∧ r ≠ "." ∧ r ≠ ".." ∧ r.data.all (fun c => ¬ (c = '/' ∨ c = '\\'))

/-! ### Filesystem model -/

/-- A filesystem node: a regular file with its text content, or a
directory.  Directory children are recovered from the flat map by path
prefix. -/
inductive Node where
  | file (content : String)
  | dir
deriving DecidableEq, Repr

/-- The filesystem: an association list from resolved paths to nodes.
The process working directory is the empty path `[]`. -/
abbrev FS := List (FPath × Node)

/-- Look up the node at a path (first matching entry). -/
def FS.lookupP (fs : FS) (p : FPath) : Option Node :=
  (fs.find? (fun e => e.1 = p)).map (fun e => e.2)

/-- Remove the single entry at a path, modelling `fs.unlinkSync`. -/
def FS.eraseP (fs : FS) (p : FPath) : FS :=
  fs.filter (fun e => e.1 ≠ p)

/-- Effect of `deleteFolderRecursive` on the path map: every entry at the
folder or below it is removed (the source walks the directory, unlinking
files and recursing into subdirectories before `rmdirSync`). -/
def removeSubtree (fs : FS) (p : FPath) : FS :=
  fs.filter (fun e => ¬ p.isPrefixOf e.1)

/-- Overwrite the entry at a path, or prepend it when absent
(modelling `fs.writeFile` / `fs.appendFile` on an existing parent). -/
def FS.setEntry (fs : FS) (p : FPath) (v : Node) : FS :=
  if (FS.lookupP fs p).isSome then
    fs.map (fun e => if e.1 = p then (p, v) else e)
  else
    (p, v) :: fs

/-- Whether some strict prefix of the path is a regular file (the
condition under which `fs.access` fails with `ENOTDIR` rather than
`ENOENT`). -/
def hasFileAncestor (fs : FS) (p : FPath) : Bool :=
  (p.inits.filter (fun q => q.length < p.length)).any
    (fun q => match FS.lookupP fs q with
      | some (Node.file _) => true
      | _ => false)

/-- Whether the destination parent exists for `fs.renameSync`: the
working directory `[]` always exists; otherwise the parent must be a
directory. -/
def parentOk (fs : FS) (p : FPath) : Bool :=
  p.dropLast = [] ∨ FS.lookupP fs p.dropLast = some Node.dir

/-- Re-key the subtree rooted at `o` to root `n`, the effect of a
successful rename on the path map. -/
def renameKeys (fs : FS) (o n : FPath) : FS :=
  fs.map (fun e => if o.isPrefixOf e.1 then (n ++ e.1.drop o.length, e.2) else e)

/-- Embedding of `fs.renameSync old new` as used by the rename route:
fails when the source is absent, when the destination lies inside the
source (`EINVAL`/`ENOTDIR`), or when the destination's parent directory
is missing (`ENOENT`); otherwise re-keys the subtree.  The route only
calls it with a source that exists and a free destination. -/
def renameSync (fs : FS) (o n : FPath) : Except Unit FS :=
  if (FS.lookupP fs o).isNone then Except.error ()
  else if o.isPrefixOf n then Except.error ()
  else if ¬ parentOk fs n then Except.error ()
  else Except.ok (renameKeys fs o n)

/-! ### Endpoint embeddings -/

/-- Ensure the notes root exists, modelling the create route's
`fs.mkdir(notesDir, { recursive: true })`. -/
def ensureRoot (fs : FS) : FS :=
  if (FS.lookupP fs ["notes"]).isSome then fs else (["notes"], Node.dir) :: fs

/-- Result of the create route: status code, resulting filesystem, and
the sanitized filename returned on success. -/
structure CreateRes where
  status : Nat
  fs : FS
  name : Option String
deriving DecidableEq, Repr

/-- Embedding of the create route's `POST`: ensure the root, reject an
empty (all-whitespace) filename, sanitize it, then create an empty file
exclusively (`writeFile` with the `wx` flag), answering 409 on `EEXIST`. -/
def createPOST (fs : FS) (filename : String) : CreateRes :=
  let fs1 := ensureRoot fs
  if trimStr filename = "" then ⟨400, fs1, none⟩
  else
    match sanitizeFilename filename with
    | none => ⟨400, fs1, none⟩
    | some name =>
      let fp := joinResolve ["notes"] (splitSegs name)
      match FS.lookupP fs1 fp with
      | some _ => ⟨409, fs1, none⟩
      | none => ⟨201, FS.setEntry fs1 fp (Node.file ""), some name⟩

/-- Embedding of the rename route's `POST`: only a truthiness check on
the two fields, `path.join` against the notes root with no containment
check, then exists / already-exists checks and `fs.renameSync`. -/
def renamePOST (fs : FS) (oldPath newPath : List String) : Nat × FS :=
  if oldPath = [] ∨ newPath = [] then (400, fs)
  else
    let oldFull := joinResolve ["notes"] oldPath
    let newFull := joinResolve ["notes"] newPath
    if (FS.lookupP fs oldFull).isNone then (404, fs)
    else if (FS.lookupP fs newFull).isSome then (409, fs)
    else
      match renameSync fs oldFull newFull with
      | Except.ok fs' => (200, fs')
      | Except.error _ => (500, fs)

/-- Embedding of the delete route's `POST` (the folder-capable variant):
truthiness check, `path.join` with no containment check, exists check,
protected-path check against the notes root, then recursive directory
removal or a single unlink. -/
def deletePOST (fs : FS) (notePath : List String) : Nat × FS :=
  if notePath = [] then (400, fs)
  else
    let fullPath := joinResolve ["notes"] notePath
    if (FS.lookupP fs fullPath).isNone then (404, fs)
    else if fullPath = ["notes"] then (403, fs)
    else if FS.lookupP fs fullPath = some Node.dir then (200, removeSubtree fs fullPath)
    else (200, FS.eraseP fs fullPath)

/-- Embedding of `validateNotePath` from the update route: remove the
disallowed characters (keeping separators), resolve against the notes
root, require the result to stay at or below the root, reject a bare
`"."`/`".."` basename, and reject any path whose normal form still
contains two consecutive dots anywhere (a substring test, so names such
as `a..b.md` are rejected as well). -/
def validateNotePath (segs : List String) : Option FPath :=
  let cleaned := segs.map (fun s => String.mk (s.data.filter (fun c => ¬ isUpdateDisallowed c)))
  let resolved := joinResolve ["notes"] cleaned
  if ¬ (["notes"].isPrefixOf resolved) then none
  else if baseNameOf cleaned = "." ∨ baseNameOf cleaned = ".." then none
  else if (normalizeRel cleaned).any (fun s => hasTwoDots s.data) then none
  else some resolved

/-- Embedding of the update route's `POST` (overwrite/append).  The
parent directory is probed with `fs.access` first; on `ENOENT` append
answers 404, while overwrite answers 404 unless the parent is the notes
root itself, in which case the handler falls through to the generic 500
response.  Append then requires an existing regular file (a directory
target gets 400, a missing one 404) and appends a newline plus the new
content; overwrite writes unconditionally. -/
def updatePOST (fs : FS) (filenameSegs : List String) (content : String)
    (action : Option String) : Nat × FS :=
  if filenameSegs = [] then (400, fs)
  else
    let isAppend := action = some "append"
    match validateNotePath filenameSegs with
    | none => (400, fs)
    | some fp =>
      let parent := fp.dropLast
      if (FS.lookupP fs parent).isSome then
        if isAppend then
          match FS.lookupP fs fp with
          | some (Node.file x) => (200, FS.setEntry fs fp (Node.file (x ++ "\n" ++ content)))
          | some Node.dir => (400, fs)
          | none => (404, fs)
        else
          match FS.lookupP fs fp with
          | some Node.dir => (500, fs)
          | _ =>
            match FS.lookupP fs parent with
            | some Node.dir => (200, FS.setEntry fs fp (Node.file content))
            | _ => (500, fs)
      else
        if hasFileAncestor fs parent then (500, fs)
        else if ¬ isAppend then
          if parent = ["notes"] then (500, fs) else (404, fs)
        else (404, fs)

/-- Whether the joined path string starts with the notes-root string (the
content route's `fullPath.startsWith(notesDir)`): a string prefix, so any
first segment that merely starts with `notes` also passes. -/
def contentPrefixOk (fullPath : FPath) : Bool :=
  match fullPath with
  | [] => false
  | s :: _ => "notes".data.isPrefixOf s.data

/-- Embedding of the content route's `GET`: require the query parameter,
apply the string-prefix containment check and the `.md` suffix check,
then `fs.readFileSync`, whose failure (absent file or directory target)
is caught by the blanket handler and answered with 500. -/
def contentGET (fs : FS) (filePathSegs : List String) : Nat × Option String :=
  if filePathSegs = [] then (400, none)
  else
    let fullPath := joinResolve ["notes"] filePathSegs
    if ¬ (contentPrefixOk fullPath ∧ strEndsWith ((filePathSegs.getLast?).getD "") ".md") then
      (400, none)
    else
      match FS.lookupP fs fullPath with
      | some (Node.file x) => (200, some x)
      | _ => (500, none)

/-! ### Tree builders -/

/-- The on-disk shape of a directory entry as reported by
`readdir(..., { withFileTypes: true })`: a file name or a directory name
with its own entries. -/
inductive FsTree where
  | file (name : String)
  | dir (name : String) (children : List FsTree)

/-- A node of the JSON tree listing (`FileNode` in the sources): files
carry no children, directories carry their listed children. -/
inductive FileNode where
  | file (name : String) (path : FPath)
  | dir (name : String) (path : FPath) (children : List FileNode)

/-- Whether a listing node is a directory. -/
def FileNode.isDirNode : FileNode → Bool
  | FileNode.dir _ _ _ => true
  | FileNode.file _ _ => false

/-- Name of a listing node. -/
def FileNode.nameOf : FileNode → String
  | FileNode.file n _ => n
  | FileNode.dir n _ _ => n

/-- Path of a listing node. -/
def FileNode.pathOf : FileNode → FPath
  | FileNode.file _ p => p
  | FileNode.dir _ p _ => p

/-- Lexicographic comparison of character lists, the model of
`localeCompare(...) ≤ 0`. -/
def charListLeb : List Char → List Char → Bool
  | [], _ => true
  | _ :: _, [] => false
  | a :: as, b :: bs => if a = b then charListLeb as bs else decide (a < b)

/-- Alphabetical comparison of names. -/
def strLeb (s t : String) : Bool :=
  charListLeb s.data t.data

/-- The named route's comparator as a Boolean relation: directories
before files, then alphabetical by name. -/
def nodeLEb (a b : FileNode) : Bool :=
  if a.isDirNode = b.isDirNode then strLeb a.nameOf b.nameOf else a.isDirNode

/-- Sort one listing level with the named route's comparator. -/
def sortNodes (l : List FileNode) : List FileNode :=
  List.insertionSort (fun a b => nodeLEb a b = true) l

/-- Collect one level of `buildFileTree`: keep directories (recursing and
sorting their children) and files ending in `.md`. -/
def buildCollect (base : FPath) : List FsTree → List FileNode
  | [] => []
  | FsTree.file n :: rest =>
    if strEndsWith n ".md" then FileNode.file n (base ++ [n]) :: buildCollect base rest
    else buildCollect base rest
  | FsTree.dir n cs :: rest =>
    FileNode.dir n (base ++ [n]) (sortNodes (buildCollect (base ++ [n]) cs))
      :: buildCollect base rest

/-- Embedding of `buildFileTree` from the named tree route: one full
walk, each level sorted directories-first then alphabetically.  It takes
no ordering sidecar. -/
def buildFileTree (entries : List FsTree) : List FileNode :=
  sortNodes (buildCollect [] entries)

/-- The sidecar index of a path: position of its last occurrence in the
`order` array (a JavaScript `Map` keeps the last binding), or `none`. -/
def orderIdx (order : List FPath) (p : FPath) : Option Nat :=
  ((order.enum).reverse.find? (fun e => e.2 = p)).map (fun e => e.1)

/-- JavaScript's `Number.MAX_SAFE_INTEGER`, the sort key of entries not
listed in the sidecar. -/
def maxSafeInteger : Nat := 9007199254740991

/-- Sidecar sort key of a listing node. -/
def nodeKey (order : List FPath) (n : FileNode) : Nat :=
  (orderIdx order n.pathOf).getD maxSafeInteger

/-- Sort one listing level by sidecar key only, the comparator
`orderA - orderB` of the sidecar-aware route. -/
def sortByKey (order : List FPath) (l : List FileNode) : List FileNode :=
  List.insertionSort (fun a b => nodeKey order a ≤ nodeKey order b) l

/-- Collect one level of the sidecar-aware `readDir`: files must end in
`.md`, directories are recursed into and kept only when their recursive
listing is nonempty. -/
def readDirGo (order : List FPath) (base : FPath) : List FsTree → List FileNode
  | [] => []
  | FsTree.file n :: rest =>
    if strEndsWith n ".md" then FileNode.file n (base ++ [n]) :: readDirGo order base rest
    else readDirGo order base rest
  | FsTree.dir n cs :: rest =>
    let cs' := sortByKey order (readDirGo order (base ++ [n]) cs)
    if cs'.isEmpty then readDirGo order base rest
    else FileNode.dir n (base ++ [n]) cs' :: readDirGo order base rest

/-- Embedding of `readDir` from the sidecar-aware tree route, applied to
the notes root: the sidecar `order` array is the only sort key at every
level. -/
def readDirTop (order : List FPath) (entries : List FsTree) : List FileNode :=
  sortByKey order (readDirGo order [] entries)

/-- Whether a list of directory entries contains a Markdown file anywhere
in its subtrees. -/
def hasMdDescList : List FsTree → Bool
  | [] => false
  | FsTree.file n :: rest => strEndsWith n ".md" || hasMdDescList rest
  | FsTree.dir _ cs :: rest => hasMdDescList cs || hasMdDescList rest

/-! ### Client drag-and-drop move handler -/

/-- A drag item as seen by `handleDragEnd`: the node path and the node
type string from the drag payload. -/
structure DragItem where
  id : FPath
  itemType : String
deriving DecidableEq, Repr

/-- Model of `path.dirname` on a relative segment path: `"."` for a
bare name, otherwise the path without its last segment. -/
def dirnameP (p : FPath) : FPath :=
  if p.length ≤ 1 then ["."] else p.dropLast

/-- Embedding of the client's `handleDragEnd` guard chain: no drop
target, dropping on itself, a non-file source, a non-directory target,
or a target equal to the source's parent all bail out without issuing a
request; otherwise a move request `(sourcePath, targetFolder)` is sent. -/
def handleDragEnd (active : DragItem) (over : Option DragItem) : Option (FPath × FPath) :=
  match over with
  | none => none
  | some o =>
    if active.id = o.id then none
    else if active.itemType ≠ "file" then none
    else if o.itemType ≠ "directory" then none
    else if dirnameP active.id = o.id then none
    else some (active.id, o.id)

/-- The filesystem after a drag-end event, for an arbitrary semantics
`send` of the move endpoint: unchanged when no request is issued. -/
def dragEndEffect (send : FPath × FPath → FS → FS) (fs : FS) (active : DragItem)
    (over : Option DragItem) : FS :=
  match handleDragEnd active over with
  | none => fs
  | some req => send req fs

/-! ### Sortedness observers for the tree listings -/

/-- Adjacent-pairs check that a listing level is sorted by the Boolean
comparator `leb`. -/
def chainB (leb : FileNode → FileNode → Bool) : List FileNode → Bool
  | [] => true
  | [_] => true
  | a :: b :: t => leb a b ∧ chainB leb (b :: t)

/-- Every directory level of a listing forest is sorted by `leb`
(children at all depths; the top level is checked separately). -/
def forestInner (leb : FileNode → FileNode → Bool) : List FileNode → Bool
  | [] => true
  | FileNode.file _ _ :: rest => forestInner leb rest
  | FileNode.dir _ _ cs :: rest =>
    chainB leb cs && forestInner leb cs && forestInner leb rest

/-- The per-node content of `forestInner`: a directory's own children are
chain-sorted and recursively in order. -/
def nodeOkB (leb : FileNode → FileNode → Bool) : FileNode → Bool
  | FileNode.file _ _ => true
  | FileNode.dir _ _ cs => chainB leb cs && forestInner leb cs

/-- The sidecar comparator as a Boolean relation. -/
def keyLEb (order : List FPath) (a b : FileNode) : Bool :=
  decide (nodeKey order a ≤ nodeKey order b)

/-! ### Concrete filesystem states used in closed statements -/

/-- A world with one note inside the root and a secret file outside it. -/
def wOutside : FS :=
  [(["notes"], Node.dir), (["notes", "a.md"], Node.file "inside"),
   (["secret.md"], Node.file "top")]

/-- A root holding a single note `n.md` with content `hello`. -/
def wMain : FS := [(["notes"], Node.dir), (["notes", "n.md"], Node.file "hello")]

/-- A root holding a subfolder `sub` and a note named `a..b.md`. -/
def wSub : FS :=
  [(["notes"], Node.dir), (["notes", "sub"], Node.dir),
   (["notes", "a..b.md"], Node.file "x")]

/-- A root holding a folder `f` containing one note. -/
def wTree : FS :=
  [(["notes"], Node.dir), (["notes", "f"], Node.dir),
   (["notes", "f", "x.md"], Node.file "1")]

/-- A bare notes root. -/
def wRoot : FS := [(["notes"], Node.dir)]

/-- A root holding a single note `a.md`. -/
def wA : FS := [(["notes"], Node.dir), (["notes", "a.md"], Node.file "x")]

/-! ### Lemmas about the filesystem map -/

/-- Lookup in the empty map. -/
theorem lookupP_nil (q : FPath) : FS.lookupP [] q = none := rfl

/-- Lookup at the head entry. -/
theorem lookupP_cons_pos (a : FPath × Node) (fs : FS) (q : FPath) (h : a.1 = q) :
    FS.lookupP (a :: fs) q = some a.2 := by
  unfold FS.lookupP
  simp [List.find?, h]

/-- Lookup skips a head entry with a different key. -/
theorem lookupP_cons_neg (a : FPath × Node) (fs : FS) (q : FPath) (h : ¬ a.1 = q) :
    FS.lookupP (a :: fs) q = FS.lookupP fs q := by
  unfold FS.lookupP
  simp [List.find?, h]

/-- Looking up a key that no surviving entry can carry yields nothing. -/
theorem lookupP_filter_none (P : FPath × Node → Bool) (fs : FS) (q : FPath)
    (h : ∀ e : FPath × Node, e.1 = q → P e = false) :
    FS.lookupP (fs.filter P) q = none := by
  induction fs with
  | nil => rfl
  | cons a fs ih =>
    by_cases hq : a.1 = q
    · have hPa : P a = false := h a hq
      simp only [List.filter_cons, hPa, Bool.false_eq_true, if_false]
      exact ih
    · by_cases hPa : P a = true
      · simp only [List.filter_cons, hPa, if_true]
        rw [lookupP_cons_neg _ _ _ hq]
        exact ih
      · simp only [List.filter_cons, hPa, if_false]
        exact ih

/-- After `unlinkSync` the unlinked path is gone. -/
theorem lookupP_eraseP_self (fs : FS) (p : FPath) :
    FS.lookupP (FS.eraseP fs p) p = none := by
  apply lookupP_filter_none
  intro e he
  simp [he]

/-- After a recursive folder delete, the folder and every former
descendant are gone. -/
theorem lookupP_removeSubtree_append (fs : FS) (p q : FPath) :
    FS.lookupP (removeSubtree fs p) (p ++ q) = none := by
  apply lookupP_filter_none
  intro e he
  have hpre : p.isPrefixOf e.1 = true := by
    rw [he]
    simp [List.isPrefixOf_iff_prefix]
  simp [hpre]

/-- Overwriting a present key makes the lookup return the new value. -/
theorem lookupP_map_set (fs : FS) (p : FPath) (v : Node)
    (h : (FS.lookupP fs p).isSome = true) :
    FS.lookupP (fs.map (fun e => if e.1 = p then (p, v) else e)) p = some v := by
  induction fs with
  | nil => simp [FS.lookupP] at h
  | cons a fs ih =>
    by_cases ha : a.1 = p
    · simp only [List.map_cons, if_pos ha]
      exact lookupP_cons_pos _ _ _ rfl
    · have htail : (FS.lookupP fs p).isSome = true := by
        rwa [lookupP_cons_neg _ _ _ ha] at h
      simp only [List.map_cons, if_neg ha]
      rw [lookupP_cons_neg _ _ _ ha]
      exact ih htail

/-- Lookup after `setEntry` returns the stored value. -/
theorem lookupP_setEntry_self (fs : FS) (p : FPath) (v : Node) :
    FS.lookupP (FS.setEntry fs p v) p = some v := by
  unfold FS.setEntry
  by_cases h : (FS.lookupP fs p).isSome = true
  · rw [if_pos h]
    exact lookupP_map_set fs p v h
  · rw [if_neg h]
    exact lookupP_cons_pos _ _ _ rfl

/-- After a successful rename the destination path holds the source's
node. -/
theorem lookupP_renameKeys_dest (fs : FS) (o n : FPath) (e : Node)
    (ho : FS.lookupP fs o = some e) (hn : FS.lookupP fs n = none) :
    FS.lookupP (renameKeys fs o n) n = some e := by
  induction fs with
  | nil => simp [FS.lookupP] at ho
  | cons a fs ih =>
    by_cases hao : a.1 = o
    · have hae : a.2 = e := by
        rw [lookupP_cons_pos _ _ _ hao] at ho
        simpa using ho
      have hpre : o.isPrefixOf a.1 = true := by
        rw [hao]
        simp [List.isPrefixOf_iff_prefix]
      unfold renameKeys
      simp only [List.map_cons, if_pos hpre]
      rw [lookupP_cons_pos _ _ _ (by simp [hao, List.drop_length])]
      simp [hae]
    · have han : ¬ a.1 = n := by
        intro hEq
        rw [lookupP_cons_pos _ _ _ hEq] at hn
        simp at hn
      have ho' : FS.lookupP fs o = some e := by
        rwa [lookupP_cons_neg _ _ _ hao] at ho
      have hn' : FS.lookupP fs n = none := by
        rwa [lookupP_cons_neg _ _ _ han] at hn
      unfold renameKeys at ih ⊢
      by_cases hpre : o.isPrefixOf a.1 = true
      · have hpre' : o <+: a.1 := List.isPrefixOf_iff_prefix.mp hpre
        obtain ⟨t, ht⟩ := hpre'
        have htne : t ≠ [] := by
          intro h0
          apply hao
          rw [← ht, h0, List.append_nil]
        have hkey : ¬ (n ++ a.1.drop o.length = n) := by
          rw [← ht, List.drop_left]
          intro hEq
          have hlen := congrArg List.length hEq
          simp at hlen
          exact htne hlen
        simp only [List.map_cons, if_pos hpre]
        rw [lookupP_cons_neg _ _ _ hkey]
        exact ih ho' hn'
      · simp only [List.map_cons, if_neg hpre]
        rw [lookupP_cons_neg _ _ _ han]
        exact ih ho' hn'

/-! ### Lemmas about the create-route sanitizer -/

/-- Appending the extension yields a string with that suffix. -/
theorem strEndsWith_append_md (s : String) : strEndsWith (s ++ ".md") ".md" = true := by
  unfold strEndsWith
  simp only [String.data_append, List.isSuffixOf_iff_suffix]
  exact List.suffix_append _ _

/-- Characters of the trimmed string come from the original. -/
theorem mem_of_mem_trimStr (s : String) (c : Char) (h : c ∈ (trimStr s).data) :
    c ∈ s.data := by
  unfold trimStr at h
  simp only [List.mem_reverse] at h
  have h1 := (List.dropWhile_sublist (l := (s.data.dropWhile Char.isWhitespace).reverse)
    (p := Char.isWhitespace)).subset h
  simp only [List.mem_reverse] at h1
  exact (List.dropWhile_sublist (l := s.data) (p := Char.isWhitespace)).subset h1

/-- Characters of the dot-stripped string come from the original. -/
theorem mem_of_mem_stripEdgeDots (s : String) (c : Char) (h : c ∈ (stripEdgeDots s).data) :
    c ∈ s.data := by
  unfold stripEdgeDots at h
  simp only [List.mem_reverse] at h
  have h1 := (List.dropWhile_sublist (l := (s.data.dropWhile (· = '.')).reverse)
    (p := (· = '.'))).subset h
  simp only [List.mem_reverse] at h1
  exact (List.dropWhile_sublist (l := s.data) (p := (· = '.'))).subset h1

/-- Facts about the final step of the sanitizer, for any intermediate
string `s2`. -/
theorem mkPost_facts (s2 r : String)
    (h : (if (if strEndsWith s2 ".md" = true then s2 else s2 ++ ".md") = ""
            ∨ (if strEndsWith s2 ".md" = true then s2 else s2 ++ ".md") = ".md"
          then none
          else some (if strEndsWith s2 ".md" = true then s2 else s2 ++ ".md")) = some r) :
    strEndsWith r ".md" = true ∧ r ≠ ".md"
    ∧ ∀ c ∈ r.data, c ∈ s2.data ∨ c ∈ (".md" : String).data := by
  by_cases hE : strEndsWith s2 ".md" = true
  · simp only [if_pos hE] at h
    by_cases hg : s2 = "" ∨ s2 = ".md"
    · rw [if_pos hg] at h
      simp at h
    · rw [if_neg hg] at h
      have hr : s2 = r := Option.some.inj h
      subst hr
      rw [not_or] at hg
      exact ⟨hE, hg.2, fun c hc => Or.inl hc⟩
  · simp only [if_neg hE] at h
    by_cases hg : s2 ++ ".md" = "" ∨ s2 ++ ".md" = ".md"
    · rw [if_pos hg] at h
      simp at h
    · rw [if_neg hg] at h
      have hr : s2 ++ ".md" = r := Option.some.inj h
      subst hr
      rw [not_or] at hg
      refine ⟨strEndsWith_append_md _, hg.2, fun c hc => ?_⟩
      rw [String.data_append] at hc
      exact List.mem_append.mp hc

/-- A successful sanitization ends in `.md`, is not bare `".md"`, and
every character either survived the disallowed-character filter or
belongs to the appended extension. -/
theorem sanitize_shape (f r : String) (h : sanitizeFilename f = some r) :
    strEndsWith r ".md" = true
    ∧ r ≠ ".md"
    ∧ ∀ c ∈ r.data, ¬ isCreateDisallowed c = true ∨ c ∈ (".md" : String).data := by
  unfold sanitizeFilename at h
  simp only [] at h
  obtain ⟨h1, h2, h3⟩ := mkPost_facts _ _ h
  refine ⟨h1, h2, fun c hc => ?_⟩
  rcases h3 c hc with hm | hm
  · left
    have hm1 := mem_of_mem_trimStr _ _ hm
    have hm2 := mem_of_mem_stripEdgeDots _ _ hm1
    have hm3 := mem_of_mem_trimStr _ _ hm2
    have hm4 := List.mem_filter.mp hm3
    simpa using hm4.2
  · right
    exact hm

/-- A successful sanitization is a plain direct-child name: nonempty, not
a dot component, and free of path separators. -/
theorem sanitize_directChild (f r : String) (h : sanitizeFilename f = some r) :
    isDirectChildName r = true := by
  obtain ⟨hEnd, hmd, hchars⟩ := sanitize_shape f r h
  have hsuf : (".md" : String).data <:+ r.data := by
    unfold strEndsWith at hEnd
    exact List.isSuffixOf_iff_suffix.mp hEnd
  have hlen : 3 ≤ r.data.length := by
    have := hsuf.length_le
    simpa using this
  simp only [isDirectChildName, decide_eq_true_eq]
  refine ⟨?_, ?_, ?_, ?_⟩
  · intro h0
    rw [h0] at hlen
    simp at hlen
  · intro h0
    rw [h0] at hlen
    simp at hlen
  · intro h0
    rw [h0] at hlen
    simp at hlen
  · rw [List.all_eq_true]
    intro c hc
    rcases hchars c hc with hm | hm
    · simp only [isCreateDisallowed] at hm
      simp only [decide_eq_true_eq]
      push_neg
      constructor
      · intro h0
        exact hm (by simp [h0])
      · intro h0
        exact hm (by simp [h0])
    · have : c = '.' ∨ c = 'm' ∨ c = 'd' := by
        simpa using hm
      rcases this with h0 | h0 | h0 <;> simp [h0]

/-- Splitting a separator-free string yields the single segment. -/
theorem splitSegsAux_no_sep (l acc : List Char)
    (h : ∀ c ∈ l, ¬ (c = '/' ∨ c = '\\')) :
    splitSegsAux l acc = [String.mk (acc.reverse ++ l)] := by
  induction l generalizing acc with
  | nil => simp [splitSegsAux]
  | cons c rest ih =>
    have hc : ¬ (c = '/' ∨ c = '\\') := h c (by simp)
    unfold splitSegsAux
    rw [if_neg hc]
    rw [ih (c :: acc) (fun d hd => h d (by simp [hd]))]
    simp

/-- A direct-child name splits into itself. -/
theorem splitSegs_direct (r : String) (h : isDirectChildName r = true) :
    splitSegs r = [r] := by
  simp only [isDirectChildName, decide_eq_true_eq] at h
  unfold splitSegs
  rw [splitSegsAux_no_sep r.data []]
  · simp
  · intro c hc
    have := List.all_eq_true.mp h.2.2.2 c hc
    simpa using this

/-- Resolving a direct-child name against the notes root lands directly
inside the root. -/
theorem joinResolve_direct (r : String) (h : isDirectChildName r = true) :
    joinResolve ["notes"] [r] = ["notes", r] := by
  simp only [isDirectChildName, decide_eq_true_eq] at h
  unfold joinResolve
  simp only [List.foldl_cons, List.foldl_nil]
  rw [if_neg (by
    rw [not_or]
    refine ⟨h.1, h.2.1⟩)]
  rw [if_neg h.2.2.1]
  rfl

/-- An all-whitespace filename never survives sanitization. -/
theorem sanitize_none_of_trim_empty (f : String) (h : trimStr f = "") :
    sanitizeFilename f = none := by
  have hall : ∀ c ∈ f.data, Char.isWhitespace c = true := by
    have hdata : (((f.data.dropWhile Char.isWhitespace).reverse.dropWhile
        Char.isWhitespace).reverse) = [] := by
      have := congrArg String.data h
      simpa [trimStr] using this
    rw [List.reverse_eq_nil_iff] at hdata
    have hinner : ∀ c ∈ (f.data.dropWhile Char.isWhitespace).reverse,
        Char.isWhitespace c = true := List.dropWhile_eq_nil_iff.mp hdata
    intro c hc
    rcases List.mem_append.mp
      ((List.takeWhile_append_dropWhile (p := Char.isWhitespace) (l := f.data)) ▸ hc)
      with hm | hm
    · exact List.mem_takeWhile_imp hm
    · exact hinner c (by simpa using hm)
  have htrim1 : trimStr (String.mk (f.data.filter
      (fun c => ¬ isCreateDisallowed c = true))) = "" := by
    unfold trimStr
    have : (String.mk (f.data.filter (fun c => ¬ isCreateDisallowed c = true))).data.dropWhile
        Char.isWhitespace = [] := by
      rw [List.dropWhile_eq_nil_iff]
      intro c hc
      exact hall c (List.mem_filter.mp hc).1
    rw [this]
    rfl
  unfold sanitizeFilename
  simp only []
  rw [htrim1]
  rfl

/-- C10: every filename accepted by the create endpoint's sanitizer is a
separator-free, non-dot component, so `path.join(notesDir, name)`
resolves to a direct child of the notes root — no input, including ones
containing `..` or separators, can place the created file outside the
root or in a subdirectory. -/
theorem create_sanitized_name_confined (f r : String)
    (h : sanitizeFilename f = some r) :
    isDirectChildName r = true
    ∧ splitSegs r = [r]
    ∧ joinResolve ["notes"] (splitSegs r) = ["notes", r] := by
  have hd := sanitize_directChild f r h
  have hs := splitSegs_direct r hd
  refine ⟨hd, hs, ?_⟩
  rw [hs]
  exact joinResolve_direct r hd

/-- Witness for `create_sanitized_name_confined` at the traversal-shaped
input `"../../evil"`, which sanitizes to the root-level name `evil.md`. -/
theorem create_sanitized_name_confined_witness :
    sanitizeFilename "../../evil" = some "evil.md"
    ∧ (isDirectChildName "evil.md" = true
       ∧ splitSegs "evil.md" = ["evil.md"]
       ∧ joinResolve ["notes"] (splitSegs "evil.md") = ["notes", "evil.md"]) :=
  ⟨by decide, create_sanitized_name_confined "../../evil" "evil.md" (by decide)⟩

/-- When the notes root already exists, the create route's `mkdir` is a
no-op. -/
theorem ensureRoot_of_root (fs : FS) (hroot : FS.lookupP fs ["notes"] = some Node.dir) :
    ensureRoot fs = fs := by
  unfold ensureRoot
  rw [hroot]
  rfl

/-- C2: the create endpoint sanitizes the filename (rejecting an empty or
`.md`-only result with 400), fails with 409 leaving the filesystem — and
hence the existing file's content — unchanged when the sanitized path is
occupied, and otherwise creates an empty file there, answering 201 with
the sanitized name. -/
theorem create_endpoint_spec (fs : FS) (f name : String)
    (hroot : FS.lookupP fs ["notes"] = some Node.dir)
    (hsan : sanitizeFilename f = some name) :
    (∀ e : Node, FS.lookupP fs ["notes", name] = some e →
      createPOST fs f = ⟨409, fs, none⟩)
    ∧ (FS.lookupP fs ["notes", name] = none →
        createPOST fs f = ⟨201, FS.setEntry fs ["notes", name] (Node.file ""), some name⟩
        ∧ FS.lookupP (FS.setEntry fs ["notes", name] (Node.file "")) ["notes", name]
            = some (Node.file ""))
    ∧ (∀ g : String, sanitizeFilename g = none → createPOST fs g = ⟨400, fs, none⟩) := by
  have hens : ensureRoot fs = fs := ensureRoot_of_root fs hroot
  have htrim : ¬ trimStr f = "" := by
    intro h0
    rw [sanitize_none_of_trim_empty f h0] at hsan
    simp at hsan
  have hfp : joinResolve ["notes"] (splitSegs name) = ["notes", name] := by
    have hd := sanitize_directChild f name hsan
    rw [splitSegs_direct name hd]
    exact joinResolve_direct name hd
  refine ⟨?_, ?_, ?_⟩
  · intro e he
    unfold createPOST
    rw [hens, if_neg htrim, hsan]
    simp only [hfp, he]
  · intro hnone
    constructor
    · unfold createPOST
      rw [hens, if_neg htrim, hsan]
      simp only [hfp, hnone]
    · exact lookupP_setEntry_self fs ["notes", name] (Node.file "")
  · intro g hg
    unfold createPOST
    rw [hens]
    by_cases hgt : trimStr g = ""
    · rw [if_pos hgt]
    · rw [if_neg hgt, hg]

/-- Witness for `create_endpoint_spec`: creating `"draft"` in a root
holding only `a.md` succeeds at `draft.md`; the hypotheses and the
201 clause are discharged at this concrete state. -/
theorem create_endpoint_spec_witness :
    FS.lookupP [(["notes"], Node.dir), (["notes", "a.md"], Node.file "x")] ["notes"]
      = some Node.dir
    ∧ sanitizeFilename "draft" = some "draft.md"
    ∧ (createPOST [(["notes"], Node.dir), (["notes", "a.md"], Node.file "x")] "draft"
        = ⟨201, FS.setEntry [(["notes"], Node.dir), (["notes", "a.md"], Node.file "x")]
            ["notes", "draft.md"] (Node.file ""), some "draft.md"⟩
       ∧ FS.lookupP (FS.setEntry [(["notes"], Node.dir), (["notes", "a.md"], Node.file "x")]
            ["notes", "draft.md"] (Node.file "")) ["notes", "draft.md"] = some (Node.file "")) :=
  ⟨by decide, by decide,
    (create_endpoint_spec [(["notes"], Node.dir), (["notes", "a.md"], Node.file "x")]
      "draft" "draft.md" (by decide) (by decide)).2.1 (by decide)⟩

/-- C1: the rename and delete endpoints perform no path-containment
check: a request path with a `..` segment is joined below the notes root
and reaches the filesystem.  At this concrete state, renaming
`../secret.md` reads and moves a file from outside the notes root
(status 200, never 400), and deleting `../secret.md` unlinks it. -/
theorem mutation_endpoints_accept_traversal :
    (renamePOST wOutside ["..", "secret.md"] ["stolen.md"]).1 = 200
    ∧ FS.lookupP (renamePOST wOutside ["..", "secret.md"] ["stolen.md"]).2
        ["secret.md"] = none
    ∧ FS.lookupP (renamePOST wOutside ["..", "secret.md"] ["stolen.md"]).2
        ["notes", "stolen.md"] = some (Node.file "top")
    ∧ deletePOST wOutside ["..", "secret.md"] = (200, FS.eraseP wOutside ["secret.md"])
    ∧ FS.lookupP (FS.eraseP wOutside ["secret.md"]) ["secret.md"] = none := by
  decide

/-- Counterexample to C5 as stated: at this state the source `a.md`
exists and the destination `sub/b.md` is unoccupied, yet the endpoint
performs no rename and answers 500, because the destination's parent
folder does not exist and `fs.renameSync` throws. -/
theorem rename_missing_parent_no_rename :
    FS.lookupP wA (joinResolve ["notes"] ["a.md"]) = some (Node.file "x")
    ∧ FS.lookupP wA (joinResolve ["notes"] ["sub", "b.md"]) = none
    ∧ renamePOST wA ["a.md"] ["sub", "b.md"] = (500, wA) := by
  decide

/-- C5 (amended): the rename endpoint answers 404 when the source is
absent; 409 with both paths' contents untouched when the destination is
occupied; when the source exists, the destination is free, its parent
directory exists and the destination does not lie inside the source, one
atomic re-keying rename is performed (200); and when the destination's
parent is missing the endpoint answers 500 and changes nothing. -/
theorem rename_endpoint_spec (fs : FS) (o n : List String) (e : Node)
    (ho : o ≠ []) (hn : n ≠ []) :
    (FS.lookupP fs (joinResolve ["notes"] o) = none → renamePOST fs o n = (404, fs))
    ∧ (FS.lookupP fs (joinResolve ["notes"] o) = some e →
        (FS.lookupP fs (joinResolve ["notes"] n)).isSome = true →
        renamePOST fs o n = (409, fs))
    ∧ (FS.lookupP fs (joinResolve ["notes"] o) = some e →
        FS.lookupP fs (joinResolve ["notes"] n) = none →
        ¬ (joinResolve ["notes"] o).isPrefixOf (joinResolve ["notes"] n) = true →
        parentOk fs (joinResolve ["notes"] n) = true →
        renamePOST fs o n
          = (200, renameKeys fs (joinResolve ["notes"] o) (joinResolve ["notes"] n))
        ∧ FS.lookupP (renameKeys fs (joinResolve ["notes"] o) (joinResolve ["notes"] n))
            (joinResolve ["notes"] n) = some e)
    ∧ (FS.lookupP fs (joinResolve ["notes"] o) = some e →
        FS.lookupP fs (joinResolve ["notes"] n) = none →
        parentOk fs (joinResolve ["notes"] n) = false →
        renamePOST fs o n = (500, fs)) := by
  have hcond : ¬ (o = [] ∨ n = []) := by
    rw [not_or]
    exact ⟨ho, hn⟩
  refine ⟨?_, ?_, ?_, ?_⟩
  · intro h0
    unfold renamePOST
    rw [if_neg hcond]
    simp only [h0, Option.isNone_none, if_true]
  · intro h0 h1
    unfold renamePOST
    rw [if_neg hcond]
    simp only [h0, Option.isNone_some, Bool.false_eq_true, if_false, h1, if_true]
  · intro h0 h1 h2 h3
    constructor
    · unfold renamePOST renameSync
      rw [if_neg hcond]
      simp only [h0, Option.isNone_some, Bool.false_eq_true, if_false, h1,
        Option.isSome_none, h2, h3]
      simp
    · exact lookupP_renameKeys_dest fs _ _ e h0 h1
  · intro h0 h1 h2
    unfold renamePOST renameSync
    rw [if_neg hcond]
    simp only [h0, Option.isNone_some, Bool.false_eq_true, if_false, h1,
      Option.isSome_none, h2]
    simp

/-- Witness for `rename_endpoint_spec`: renaming `a.md` to the free
root-level name `b.md` re-keys the entry, at the concrete state `wA`. -/
theorem rename_endpoint_spec_witness :
    (["a.md"] : List String) ≠ []
    ∧ FS.lookupP wA (joinResolve ["notes"] ["a.md"]) = some (Node.file "x")
    ∧ FS.lookupP wA (joinResolve ["notes"] ["b.md"]) = none
    ∧ (renamePOST wA ["a.md"] ["b.md"]
        = (200, renameKeys wA (joinResolve ["notes"] ["a.md"]) (joinResolve ["notes"] ["b.md"]))
       ∧ FS.lookupP (renameKeys wA (joinResolve ["notes"] ["a.md"])
            (joinResolve ["notes"] ["b.md"])) (joinResolve ["notes"] ["b.md"])
          = some (Node.file "x")) :=
  ⟨by decide, by decide, by decide,
    (rename_endpoint_spec wA ["a.md"] ["b.md"] (Node.file "x")
      (by decide) (by decide)).2.2.1 (by decide) (by decide) (by decide) (by decide)⟩

/-- C4: given an existing notes root, the delete endpoint answers 404
when nothing exists at the resolved path; 403 leaving everything intact
when the path resolves to the notes root itself; removes a directory
together with every descendant (200), so that no lookup at the folder or
below it succeeds afterwards; and unlinks a single file (200). -/
theorem delete_endpoint_spec (fs : FS) (p : List String)
    (hp : p ≠ [])
    (hroot : FS.lookupP fs ["notes"] = some Node.dir) :
    (FS.lookupP fs (joinResolve ["notes"] p) = none → deletePOST fs p = (404, fs))
    ∧ (joinResolve ["notes"] p = ["notes"] → deletePOST fs p = (403, fs))
    ∧ (FS.lookupP fs (joinResolve ["notes"] p) = some Node.dir →
        joinResolve ["notes"] p ≠ ["notes"] →
        deletePOST fs p = (200, removeSubtree fs (joinResolve ["notes"] p))
        ∧ ∀ q : FPath,
            FS.lookupP (removeSubtree fs (joinResolve ["notes"] p))
              (joinResolve ["notes"] p ++ q) = none)
    ∧ (∀ x : String, FS.lookupP fs (joinResolve ["notes"] p) = some (Node.file x) →
        joinResolve ["notes"] p ≠ ["notes"] →
        deletePOST fs p = (200, FS.eraseP fs (joinResolve ["notes"] p))
        ∧ FS.lookupP (FS.eraseP fs (joinResolve ["notes"] p))
            (joinResolve ["notes"] p) = none) := by
  refine ⟨?_, ?_, ?_, ?_⟩
  · intro h0
    unfold deletePOST
    rw [if_neg hp]
    simp only [h0, Option.isNone_none, if_true]
  · intro h0
    unfold deletePOST
    rw [if_neg hp]
    simp only [h0, hroot, Option.isNone_some, Bool.false_eq_true, if_false, if_true]
  · intro h0 h1
    refine ⟨?_, fun q => lookupP_removeSubtree_append fs _ q⟩
    unfold deletePOST
    rw [if_neg hp]
    simp only [h0, Option.isNone_some, Bool.false_eq_true, if_false, if_neg h1, if_true]
  · intro x h0 h1
    refine ⟨?_, lookupP_eraseP_self fs _⟩
    unfold deletePOST
    rw [if_neg hp]
    simp only [h0, Option.isNone_some, Bool.false_eq_true, if_false, if_neg h1]
    simp

/-- Witness for `delete_endpoint_spec`: deleting the folder `f` in `wTree`
removes it and its descendant note `f/x.md`. -/
theorem delete_endpoint_spec_witness :
    (["f"] : List String) ≠ []
    ∧ FS.lookupP wTree ["notes"] = some Node.dir
    ∧ (deletePOST wTree ["f"] = (200, removeSubtree wTree (joinResolve ["notes"] ["f"]))
       ∧ FS.lookupP (removeSubtree wTree (joinResolve ["notes"] ["f"]))
          (joinResolve ["notes"] ["f"] ++ ["x.md"]) = none) :=
  ⟨by decide, by decide,
    ((delete_endpoint_spec wTree ["f"] (by decide) (by decide)).2.2.1
      (by decide) (by decide)).1,
    ((delete_endpoint_spec wTree ["f"] (by decide) (by decide)).2.2.1
      (by decide) (by decide)).2 ["x.md"]⟩

/-- Counterexample to C3 as stated: appending to a target that exists
but is a directory answers 400, not `NotFound`; and appending to the
existing note `a..b.md` (creatable by the create endpoint) answers 400
as well, because the update route's validator rejects any path
containing two consecutive dots, even inside a legitimate name.  Nothing
is written in either case. -/
theorem append_dir_target_and_dotdot_name :
    FS.lookupP wSub (joinResolve ["notes"] ["sub"]) = some Node.dir
    ∧ updatePOST wSub ["sub"] "c" (some "append") = (400, wSub)
    ∧ FS.lookupP wSub ["notes", "a..b.md"] = some (Node.file "x")
    ∧ updatePOST wSub ["a..b.md"] "c" (some "append") = (400, wSub) := by
  decide

/-- C3 (amended): for a request path accepted by the update route's
validator whose resolved parent is an existing directory, append on an
existing regular file with content `X` rewrites it to `X ++ "\n" ++ C`
(status 200); append on a missing target answers 404 writing nothing;
and append on a directory target answers 400 (not `NotFound`) writing
nothing. -/
theorem append_endpoint_spec (fs : FS) (segs : List String) (c : String) (fp : FPath)
    (hsegs : segs ≠ [])
    (hval : validateNotePath segs = some fp)
    (hpar : FS.lookupP fs fp.dropLast = some Node.dir) :
    (∀ x : String, FS.lookupP fs fp = some (Node.file x) →
      updatePOST fs segs c (some "append")
        = (200, FS.setEntry fs fp (Node.file (x ++ "\n" ++ c)))
      ∧ FS.lookupP (FS.setEntry fs fp (Node.file (x ++ "\n" ++ c))) fp
          = some (Node.file (x ++ "\n" ++ c)))
    ∧ (FS.lookupP fs fp = none → updatePOST fs segs c (some "append") = (404, fs))
    ∧ (FS.lookupP fs fp = some Node.dir →
        updatePOST fs segs c (some "append") = (400, fs)) := by
  have hparSome : (FS.lookupP fs fp.dropLast).isSome = true := by
    rw [hpar]
    rfl
  refine ⟨?_, ?_, ?_⟩
  · intro x h0
    constructor
    · unfold updatePOST
      rw [if_neg hsegs, hval]
      simp only [hparSome, if_true, h0]
    · exact lookupP_setEntry_self fs fp (Node.file (x ++ "\n" ++ c))
  · intro h0
    unfold updatePOST
    rw [if_neg hsegs, hval]
    simp only [hparSome, if_true, h0]
  · intro h0
    unfold updatePOST
    rw [if_neg hsegs, hval]
    simp only [hparSome, if_true, h0]

/-- Witness for `append_endpoint_spec`: appending `world` to the note
`n.md` holding `hello` yields `hello\nworld`, at the concrete state
`wMain`. -/
theorem append_endpoint_spec_witness :
    (["n.md"] : List String) ≠ []
    ∧ validateNotePath ["n.md"] = some ["notes", "n.md"]
    ∧ FS.lookupP wMain (["notes", "n.md"] : FPath).dropLast = some Node.dir
    ∧ (updatePOST wMain ["n.md"] "world" (some "append")
        = (200, FS.setEntry wMain ["notes", "n.md"] (Node.file ("hello" ++ "\n" ++ "world")))
       ∧ FS.lookupP (FS.setEntry wMain ["notes", "n.md"]
            (Node.file ("hello" ++ "\n" ++ "world"))) ["notes", "n.md"]
          = some (Node.file ("hello" ++ "\n" ++ "world"))) :=
  ⟨by decide, by decide, by decide,
    (append_endpoint_spec wMain ["n.md"] "world" ["notes", "n.md"]
      (by decide) (by decide) (by decide)).1 "hello" (by decide)⟩

/-- Counterexample to C6 as stated: reading the absent note `gone.md`
from a bare root answers 500 (the `readFileSync` failure is caught by
the blanket handler), not `NotFound`. -/
theorem content_missing_note_is_500 :
    FS.lookupP wRoot (joinResolve ["notes"] ["gone.md"]) = none
    ∧ contentGET wRoot ["gone.md"] = (500, none) := by
  decide

/-- C6 (amended): for a request path that passes the content route's
prefix and extension checks, an existing note's raw text is returned
with 200, and a missing note yields the generic 500 failure rather than
`NotFound`. -/
theorem content_endpoint_spec (fs : FS) (segs : List String)
    (hne : segs ≠ [])
    (hok : contentPrefixOk (joinResolve ["notes"] segs) = true)
    (hmd : strEndsWith ((segs.getLast?).getD "") ".md" = true) :
    (∀ x : String, FS.lookupP fs (joinResolve ["notes"] segs) = some (Node.file x) →
      contentGET fs segs = (200, some x))
    ∧ (FS.lookupP fs (joinResolve ["notes"] segs) = none →
      contentGET fs segs = (500, none)) := by
  have hguard : ¬ ¬ (contentPrefixOk (joinResolve ["notes"] segs) = true
      ∧ strEndsWith ((segs.getLast?).getD "") ".md" = true) := by
    rw [not_not]
    exact ⟨hok, hmd⟩
  constructor
  · intro x h0
    unfold contentGET
    rw [if_neg hne, if_neg hguard, h0]
  · intro h0
    unfold contentGET
    rw [if_neg hne, if_neg hguard, h0]

/-- Witness for `content_endpoint_spec`: reading the existing note
`n.md` of `wMain` returns its text `hello`. -/
theorem content_endpoint_spec_witness :
    (["n.md"] : List String) ≠ []
    ∧ contentPrefixOk (joinResolve ["notes"] ["n.md"]) = true
    ∧ strEndsWith (((["n.md"] : List String).getLast?).getD "") ".md" = true
    ∧ contentGET wMain ["n.md"] = (200, some "hello") :=
  ⟨by decide, by decide, by decide,
    (content_endpoint_spec wMain ["n.md"] (by decide) (by decide) (by decide)).1
      "hello" (by decide)⟩

/-- C8: when the drag target is a directory equal to the dragged file's
current parent, `handleDragEnd` bails out before issuing any move
request, so the filesystem is unchanged whatever the move endpoint would
do. -/
theorem dragend_same_parent_rejected (send : FPath × FPath → FS → FS) (fs : FS)
    (a o : DragItem)
    (hf : a.itemType = "file")
    (hd : o.itemType = "directory")
    (hp : dirnameP a.id = o.id) :
    handleDragEnd a (some o) = none ∧ dragEndEffect send fs a (some o) = fs := by
  have hnone : handleDragEnd a (some o) = none := by
    simp only [handleDragEnd]
    by_cases hid : a.id = o.id
    · rw [if_pos hid]
    · rw [if_neg hid]
      rw [if_neg (by simp [hf])]
      rw [if_neg (by simp [hd])]
      rw [if_pos hp]
  exact ⟨hnone, by unfold dragEndEffect; rw [hnone]⟩

/-- Witness for `dragend_same_parent_rejected`: dragging `p/f.md` onto
its own parent folder `p` issues no request, even for a move semantics
that would wipe the filesystem. -/
theorem dragend_same_parent_rejected_witness :
    (DragItem.mk ["p", "f.md"] "file").itemType = "file"
    ∧ (DragItem.mk ["p"] "directory").itemType = "directory"
    ∧ dirnameP (DragItem.mk ["p", "f.md"] "file").id = (DragItem.mk ["p"] "directory").id
    ∧ (handleDragEnd (DragItem.mk ["p", "f.md"] "file")
        (some (DragItem.mk ["p"] "directory")) = none
       ∧ dragEndEffect (fun _ _ => []) wMain (DragItem.mk ["p", "f.md"] "file")
          (some (DragItem.mk ["p"] "directory")) = wMain) :=
  ⟨by decide, by decide, by decide,
    dragend_same_parent_rejected (fun _ _ => []) wMain
      (DragItem.mk ["p", "f.md"] "file") (DragItem.mk ["p"] "directory")
      (by decide) (by decide) (by decide)⟩

/-- A directory subtree without any Markdown file produces an empty
recursive listing. -/
theorem readDirGo_nil_of_no_md : ∀ cs : List FsTree, hasMdDescList cs = false →
    ∀ (order : List FPath) (base : FPath), readDirGo order base cs = [] := by
  intro cs
  induction cs using hasMdDescList.induct with
  | case1 =>
    intro _ order base
    simp [readDirGo]
  | case2 n rest ih =>
    intro h order base
    simp only [hasMdDescList, Bool.or_eq_false_iff] at h
    simp [readDirGo, h.1, ih h.2 order base]
  | case3 n cs2 rest ih1 ih2 =>
    intro h order base
    simp only [hasMdDescList, Bool.or_eq_false_iff] at h
    simp [readDirGo, ih1 h.1 order (base ++ [n]), sortByKey, ih2 h.2 order base]

/-- C9: the sidecar-aware tree builder omits every directory whose
subtree contains no Markdown file — at any position of any level, such a
directory entry contributes nothing to the listing. -/
theorem readdir_omits_md_free_dirs (order : List FPath) (base : FPath) (n : String)
    (cs : List FsTree) (pre rest : List FsTree)
    (h : hasMdDescList cs = false) :
    readDirGo order base (pre ++ FsTree.dir n cs :: rest)
      = readDirGo order base (pre ++ rest)
    ∧ readDirTop order (pre ++ FsTree.dir n cs :: rest)
      = readDirTop order (pre ++ rest) := by
  have hgo : ∀ (base' : FPath) (pre' rest' : List FsTree),
      readDirGo order base' (pre' ++ FsTree.dir n cs :: rest')
        = readDirGo order base' (pre' ++ rest') := by
    intro base' pre'
    induction pre' generalizing base' with
    | nil =>
      intro rest'
      simp only [List.nil_append]
      rw [readDirGo]
      simp [readDirGo_nil_of_no_md cs h order (base' ++ [n]), sortByKey]
    | cons x pre2 ih =>
      intro rest'
      cases x with
      | file nm =>
        simp only [List.cons_append]
        rw [readDirGo, readDirGo]
        rw [ih base' rest']
      | dir nm cs2 =>
        simp only [List.cons_append]
        rw [readDirGo, readDirGo]
        rw [ih base' rest']
  refine ⟨hgo base pre rest, ?_⟩
  unfold readDirTop
  rw [hgo [] pre rest]

/-- Witness for `readdir_omits_md_free_dirs`: a folder holding only an
empty subfolder disappears from the listing of a root that also holds
one note. -/
theorem readdir_omits_md_free_dirs_witness :
    hasMdDescList [FsTree.dir "inner" []] = false
    ∧ (readDirGo [] [] ([FsTree.file "a.md"] ++ FsTree.dir "empty" [FsTree.dir "inner" []] :: [])
        = readDirGo [] [] ([FsTree.file "a.md"] ++ [])
       ∧ readDirTop [] ([FsTree.file "a.md"] ++ FsTree.dir "empty" [FsTree.dir "inner" []] :: [])
        = readDirTop [] ([FsTree.file "a.md"] ++ [])) :=
  ⟨by simp [hasMdDescList],
    readdir_omits_md_free_dirs [] [] "empty" [FsTree.dir "inner" []]
      [FsTree.file "a.md"] [] (by simp [hasMdDescList])⟩

/-! ### Sortedness of the two tree builders -/

/-- The lexicographic comparison is total. -/
theorem charListLeb_total : ∀ l m : List Char,
    charListLeb l m = true ∨ charListLeb m l = true := by
  intro l
  induction l with
  | nil =>
    intro m
    left
    rfl
  | cons a as ih =>
    intro m
    cases m with
    | nil =>
      right
      rfl
    | cons b bs =>
      by_cases hab : a = b
      · subst hab
        rcases ih bs with h | h
        · left
          simp [charListLeb, h]
        · right
          simp [charListLeb, h]
      · rcases lt_trichotomy a b with h | h | h
        · left
          simp [charListLeb, hab, h]
        · exact absurd h hab
        · right
          have hba : ¬ b = a := fun hh => hab hh.symm
          simp only [charListLeb, if_neg hba]
          simp [h]

/-- The lexicographic comparison is transitive. -/
theorem charListLeb_trans : ∀ l m k : List Char,
    charListLeb l m = true → charListLeb m k = true → charListLeb l k = true := by
  intro l
  induction l with
  | nil =>
    intro m k _ _
    rfl
  | cons a as ih =>
    intro m k hlm hmk
    cases m with
    | nil => simp [charListLeb] at hlm
    | cons b bs =>
      cases k with
      | nil => simp [charListLeb] at hmk
      | cons c cs =>
        by_cases hab : a = b
        · subst hab
          by_cases hbc : a = c
          · subst hbc
            simp only [charListLeb, if_pos rfl] at hlm hmk ⊢
            exact ih bs cs hlm hmk
          · simp only [charListLeb, if_pos rfl] at hlm
            simp only [charListLeb, if_neg hbc] at hmk ⊢
            exact hmk
        · by_cases hbc : b = c
          · subst hbc
            simp only [charListLeb, if_neg hab] at hlm ⊢
            exact hlm
          · simp only [charListLeb, if_neg hab] at hlm
            simp only [charListLeb, if_neg hbc] at hmk
            have hlt1 : a < b := by simpa using hlm
            have hlt2 : b < c := by simpa using hmk
            have hac : a ≠ c := by
              intro hEq
              subst hEq
              exact absurd (lt_trans hlt1 hlt2) (lt_irrefl a)
            simp only [charListLeb, if_neg hac]
            simp [lt_trans hlt1 hlt2]

/-- The named route's comparator is total. -/
theorem nodeLEb_total (a b : FileNode) : nodeLEb a b = true ∨ nodeLEb b a = true := by
  unfold nodeLEb
  by_cases h : a.isDirNode = b.isDirNode
  · rw [if_pos h, if_pos h.symm]
    exact charListLeb_total _ _
  · rw [if_neg h, if_neg (fun hh => h hh.symm)]
    cases ha : a.isDirNode <;> cases hb : b.isDirNode <;> simp_all

/-- The named route's comparator is transitive. -/
theorem nodeLEb_trans (a b c : FileNode)
    (h1 : nodeLEb a b = true) (h2 : nodeLEb b c = true) : nodeLEb a c = true := by
  unfold nodeLEb at h1 h2 ⊢
  cases ha : a.isDirNode <;> cases hb : b.isDirNode <;> cases hc : c.isDirNode
  all_goals simp_all
  all_goals exact charListLeb_trans _ _ _ h1 h2

/-- Any level sorted by `insertionSort` passes the adjacent-pairs check:
generic bridge from `List.Sorted` to `chainB`. -/
theorem chainB_of_sorted (leb : FileNode → FileNode → Bool)
    (r : FileNode → FileNode → Prop) (hr : ∀ a b, r a b → leb a b = true) :
    ∀ l : List FileNode, List.Sorted r l → chainB leb l = true := by
  intro l
  induction l with
  | nil =>
    intro _
    rfl
  | cons a t ih =>
    intro hs
    cases t with
    | nil => rfl
    | cons b t2 =>
      rw [List.sorted_cons] at hs
      have hab : r a b := hs.1 b (by simp)
      have hrest := ih hs.2
      simp [chainB, hr a b hab, hrest]

/-- The named route's per-level sort is chain-sorted. -/
theorem chainB_sortNodes (l : List FileNode) : chainB nodeLEb (sortNodes l) = true := by
  haveI ht : IsTotal FileNode (fun a b => nodeLEb a b = true) := ⟨nodeLEb_total⟩
  haveI htr : IsTrans FileNode (fun a b => nodeLEb a b = true) :=
    ⟨fun a b c => nodeLEb_trans a b c⟩
  exact chainB_of_sorted nodeLEb _ (fun _ _ h => h) _
    (List.sorted_insertionSort (fun a b => nodeLEb a b = true) l)

/-- The sidecar route's per-level sort is chain-sorted by sidecar key. -/
theorem chainB_sortByKey (order : List FPath) (l : List FileNode) :
    chainB (keyLEb order) (sortByKey order l) = true := by
  haveI ht : IsTotal FileNode (fun a b => nodeKey order a ≤ nodeKey order b) :=
    ⟨fun a b => Nat.le_total _ _⟩
  haveI htr : IsTrans FileNode (fun a b => nodeKey order a ≤ nodeKey order b) :=
    ⟨fun _ _ _ h1 h2 => Nat.le_trans h1 h2⟩
  exact chainB_of_sorted (keyLEb order) _
    (fun a b h => by simp [keyLEb, h]) _
    (List.sorted_insertionSort (fun a b => nodeKey order a ≤ nodeKey order b) l)

/-- The nested-sortedness check is the conjunction of a per-node
condition over the level. -/
theorem forestInner_eq_all (leb : FileNode → FileNode → Bool) :
    ∀ l : List FileNode, forestInner leb l = l.all (nodeOkB leb) := by
  intro l
  induction l with
  | nil => simp [forestInner]
  | cons x rest ih =>
    cases x with
    | file n p => simp [forestInner, nodeOkB, ih]
    | dir n p cs => simp [forestInner, nodeOkB, ih, Bool.and_assoc]

/-- `List.all` is invariant under permutation. -/
theorem all_congr_perm (p : FileNode → Bool) (l l' : List FileNode)
    (h : l.Perm l') : l.all p = l'.all p := by
  by_cases h1 : l.all p = true
  · rw [h1]
    symm
    rw [List.all_eq_true] at h1 ⊢
    exact fun x hx => h1 x (h.mem_iff.mpr hx)
  · have h2 : ¬ l'.all p = true := by
      intro hh
      exact h1 (List.all_eq_true.mpr fun x hx =>
        List.all_eq_true.mp hh x (h.mem_iff.mp hx))
    rw [Bool.not_eq_true] at h1 h2
    rw [h1, h2]

/-- Sorting a level does not affect nested sortedness. -/
theorem forestInner_perm (leb : FileNode → FileNode → Bool) (l l' : List FileNode)
    (h : l.Perm l') : forestInner leb l = forestInner leb l' := by
  rw [forestInner_eq_all, forestInner_eq_all]
  exact all_congr_perm _ _ _ h

/-- Every level produced by the named route's collector is nested-sorted
once each directory's children are sorted at construction. -/
theorem buildCollect_inner (base : FPath) (es : List FsTree) :
    forestInner nodeLEb (buildCollect base es) = true := by
  induction base, es using buildCollect.induct with
  | case1 base =>
    simp [buildCollect, forestInner]
  | case2 base name rest h ih =>
    simp [buildCollect, h, forestInner, ih]
  | case3 base name rest h ih =>
    simp [buildCollect, h, ih]
  | case4 base name cs rest ihc ihr =>
    rw [buildCollect]
    simp only [forestInner]
    have hperm : forestInner nodeLEb (sortNodes (buildCollect (base ++ [name]) cs))
        = forestInner nodeLEb (buildCollect (base ++ [name]) cs) :=
      forestInner_perm nodeLEb _ _
        (List.perm_insertionSort (fun a b => nodeLEb a b = true) _)
    rw [chainB_sortNodes, hperm, ihc, ihr]
    rfl

/-- Every level produced by the sidecar-aware collector is nested-sorted
by sidecar key. -/
theorem readDirGo_inner (order : List FPath) (base : FPath) (es : List FsTree) :
    forestInner (keyLEb order) (readDirGo order base es) = true := by
  induction base, es using readDirGo.induct order with
  | case1 base =>
    simp [readDirGo, forestInner]
  | case2 base name rest h ih =>
    simp [readDirGo, h, forestInner, ih]
  | case3 base name rest h ih =>
    simp [readDirGo, h, ih]
  | case4 base name cs rest csv hempty ihc ihr =>
    have h1 : (sortByKey order (readDirGo order (base ++ [name]) cs)).isEmpty = true := hempty
    rw [readDirGo, if_pos h1]
    exact ihr
  | case5 base name cs rest csv hempty ihc ihr =>
    have h1 : ¬ (sortByKey order (readDirGo order (base ++ [name]) cs)).isEmpty = true :=
      hempty
    rw [readDirGo, if_neg h1]
    simp only [forestInner]
    have hperm : forestInner (keyLEb order)
        (sortByKey order (readDirGo order (base ++ [name]) cs))
        = forestInner (keyLEb order) (readDirGo order (base ++ [name]) cs) :=
      forestInner_perm (keyLEb order) _ _
        (List.perm_insertionSort (fun a b => nodeKey order a ≤ nodeKey order b) _)
    rw [chainB_sortByKey, hperm, ihc, ihr]
    rfl

/-- Counterexample to C7 as stated: with no sidecar, the sidecar-aware
builder keeps the raw directory-entry order — here the file `b.md` is
listed before the directory `a`, so the listing is neither
directories-first nor alphabetical. -/
theorem readdir_keeps_raw_order :
    readDirTop [] [FsTree.file "b.md", FsTree.dir "a" [FsTree.file "c.md"]]
      = [FileNode.file "b.md" ["b.md"],
         FileNode.dir "a" ["a"] [FileNode.file "c.md" ["a", "c.md"]]] := by
  simp +decide [readDirTop, readDirGo, sortByKey]

/-- C7 (amended): the named tree route's builder sorts every level with
directories before files and alphabetically within the same type and
never consults the sidecar, while the sidecar-aware builder sorts every
level solely by sidecar index — listed paths in index order, unlisted
entries (key `Number.MAX_SAFE_INTEGER`) after all listed ones — with no
directories-first or alphabetical ordering. -/
theorem tree_builders_sort_spec :
    (∀ es : List FsTree,
      chainB nodeLEb (buildFileTree es) = true
      ∧ forestInner nodeLEb (buildFileTree es) = true)
    ∧ (∀ (order : List FPath) (es : List FsTree),
      chainB (keyLEb order) (readDirTop order es) = true
      ∧ forestInner (keyLEb order) (readDirTop order es) = true) := by
  constructor
  · intro es
    constructor
    · exact chainB_sortNodes (buildCollect [] es)
    · unfold buildFileTree
      have hperm : forestInner nodeLEb (sortNodes (buildCollect [] es))
          = forestInner nodeLEb (buildCollect [] es) :=
        forestInner_perm nodeLEb _ _
          (List.perm_insertionSort (fun a b => nodeLEb a b = true) _)
      rw [hperm]
      exact buildCollect_inner [] es
  · intro order es
    constructor
    · exact chainB_sortByKey order (readDirGo order [] es)
    · unfold readDirTop
      have hperm : forestInner (keyLEb order) (sortByKey order (readDirGo order [] es))
          = forestInner (keyLEb order) (readDirGo order [] es) :=
        forestInner_perm (keyLEb order) _ _
          (List.perm_insertionSort (fun a b => nodeKey order a ≤ nodeKey order b) _)
      rw [hperm]
      exact readDirGo_inner order [] es
